import Mathlib

/-!
# Verification of the chat-client conversation core

A shallow embedding, in Lean 4, of the conversation-state logic of the
`good-chatbot` repository: the message data model, the validation gate,
the send operation (`handleSendMessage` from `src/app/page.tsx`), the
streaming accumulation loop (`streamResponse`), the request formatting
(`streamResponse` in `src/app/page.tsx` and `queryAPI` in the `part_000`
variant), the chat-input submit handler (`src/components/chat-input.tsx`),
and the local-storage persistence adapter (`loadConversationHistory` /
`saveConversationHistory`) together with a model of the platform JSON
codec it relies on.

Conventions: JavaScript strings are modelled by Lean `String` (length
counted in characters), `String.prototype.trim` by `jsTrim` below, and
the platform `JSON.parse` / `JSON.stringify` pair by an executable codec
over an inductive `Json` type in which numbers are restricted to
integers (no value handled by the application serializes a fractional
number).
-/

/-- The role of one conversation turn (`type MessageRole` in
`src/app/page.tsx`). -/
inductive Role where
  | user
  | assistant
  | system
deriving DecidableEq, Repr

/-- One conversation turn (`type Message` in `src/app/page.tsx`):
a role together with its text content. -/
structure Message where
  role : Role
  content : String
deriving DecidableEq, Repr

/-- Constant `MAX_HISTORY_LENGTH = 12` from `src/app/page.tsx`: the window
`W` the transcript is truncated to. -/
def MAX_HISTORY_LENGTH : Nat := 12

/-- Constant `MAX_MESSAGE_LENGTH = 500` from `src/app/page.tsx`: the bound
on an outgoing message's raw text length. -/
def MAX_MESSAGE_LENGTH : Nat := 500

/-- The trailing-whitespace trim on character lists: drop whitespace from
the right end, modelling the right half of `String.prototype.trim`. -/
def trimRightChars (l : List Char) : List Char :=
  l.rdropWhile Char.isWhitespace

/-- Whitespace trim on character lists: drop whitespace from both ends. -/
def trimChars (l : List Char) : List Char :=
  trimRightChars (l.dropWhile Char.isWhitespace)

/-- Model of JavaScript `String.prototype.trim`: remove leading and
trailing whitespace. -/
def jsTrim (s : String) : String :=
  String.mk (trimChars s.data)

/-- Array `slice(-n)`: keep only the last `n` entries (the whole list
when it is no longer than `n`). -/
def sliceLast (n : Nat) (l : List α) : List α :=
  l.drop (l.length - n)

/-- Embedding of `validateMessage` from `src/app/page.tsx`, with the `setError` calls
made explicit in the return value: `none` means the message is accepted,
`some reason` means it is rejected with that user-visible error string.
The checks run in source order: busy flag, empty-after-trim, over-length. -/
def validateMessage (isTyping : Bool) (message : String) : Option String :=
  if isTyping then
    some "Aguarde a resposta anterior ser concluída"
  else if jsTrim message = "" then
    some "A mensagem não pode estar vazia"
  else if message.length > MAX_MESSAGE_LENGTH then
    some ("A mensagem deve ter no máximo " ++ toString MAX_MESSAGE_LENGTH ++ " caracteres")
  else
    none

/-- Embedding of `handleSubmit` from `src/components/chat-input.tsx`: given the raw
input text and the `disabled` flag, either invoke `onSendMessage` with
the trimmed input (`some` case) or do nothing (`none` case). The source
guards with `if (input.trim() && !disabled)`. -/
def handleSubmit (input : String) (disabled : Bool) : Option String :=
  if jsTrim input ≠ "" ∧ disabled = false then some (jsTrim input) else none

/-- One step of the streaming loop in `streamResponse`
(`src/app/page.tsx`): the state is the pair of the running buffer
`fullResponse` and the last value passed to `setCurrentResponse`
(the buffer exposed to the presentation layer); a falsy (empty) delta is
skipped, any other delta is concatenated and the buffer re-exposed. -/
def streamStep (st : String × String) (delta : String) : String × String :=
  if delta = "" then st else (st.1 ++ delta, st.1 ++ delta)

/-- The whole streaming loop of `streamResponse` over a finite list of
deltas, starting from the empty buffer and the initial
`setCurrentResponse('')` exposure. -/
def runStream (deltas : List String) : String × String :=
  deltas.foldl streamStep ("", "")

/-- The value `streamResponse` returns once the stream completes:
the trimmed accumulated buffer (`return fullResponse.trim()`). -/
def streamFinal (deltas : List String) : String :=
  jsTrim (runStream deltas).1

/-- Concatenation of a list of strings in order (the reference value the
streaming buffer is compared against). -/
def concatAll (deltas : List String) : String :=
  deltas.foldl (fun a b => a ++ b) ""

-- ### Conversation reducer: append operations and the history window

/-- One append operation on the transcript, as performed by
`handleSendMessage` in `src/app/page.tsx`: either the user turn appended
before the inference call, or the assistant turn appended on success. -/
inductive AppendOp where
  | user (text : String)
  | assistant (text : String)
deriving DecidableEq, Repr

/-- The update `setMessages(prev => [...prev, newUserMessage])` from
`handleSendMessage`: the user turn is appended with no truncation. -/
def appendUser (t : List Message) (text : String) : List Message :=
  t ++ [⟨Role.user, text⟩]

/-- The update `setMessages(prev => [...prev, newAssistantMessage].slice(-MAX_HISTORY_LENGTH))`
from `handleSendMessage`: the assistant turn is appended and the result
truncated to the most recent `MAX_HISTORY_LENGTH` entries. -/
def appendAssistant (t : List Message) (text : String) : List Message :=
  sliceLast MAX_HISTORY_LENGTH (t ++ [⟨Role.assistant, text⟩])

/-- Dispatch of one append operation. -/
def applyOp (t : List Message) : AppendOp → List Message
  | AppendOp.user s => appendUser t s
  | AppendOp.assistant s => appendAssistant t s

/-- A sequence of append operations applied in order. -/
def applyOps (t : List Message) (ops : List AppendOp) : List Message :=
  ops.foldl applyOp t

/-- The message an append operation inserts. -/
def opMessage : AppendOp → Message
  | AppendOp.user s => ⟨Role.user, s⟩
  | AppendOp.assistant s => ⟨Role.assistant, s⟩

/-- The full list of turns a sequence of appends inserts, in insertion
order (the unbounded history the window is compared against). -/
def appendedMsgs (ops : List AppendOp) : List Message :=
  ops.map opMessage

/-- Whether an operation is an assistant append. -/
def isAssistantOp : AppendOp → Bool
  | AppendOp.assistant _ => true
  | AppendOp.user _ => false

-- ### Model of the platform JSON codec (JSON.parse / JSON.stringify)

/-- A JSON value, as produced by the platform `JSON.parse`. Numbers are
modelled as integers: no value the application stores or restores
serializes a fractional number. -/
inductive Json where
  | null
  | bool (b : Bool)
  | num (n : Int)
  | str (s : String)
  | arr (elems : List Json)
  | obj (fields : List (String × Json))

/-- Lowercase hexadecimal digit for `n < 16`, as `JSON.stringify` emits
in control-character escapes. -/
def hexDigitChar (n : Nat) : Char :=
  if n < 10 then Char.ofNat (48 + n) else Char.ofNat (87 + n)

/-- Escaping by `JSON.stringify` of one string character: quote, backslash,
the named control escapes, a `\u00XX` escape for remaining control
characters, and every other character unchanged. -/
def escapeChar (c : Char) : List Char :=
  if c = '"' then ['\\', '"']
  else if c = '\\' then ['\\', '\\']
  else if c = '\x08' then ['\\', 'b']
  else if c = '\x0c' then ['\\', 'f']
  else if c = '\n' then ['\\', 'n']
  else if c = '\r' then ['\\', 'r']
  else if c = '\t' then ['\\', 't']
  else if c.toNat < 32 then
    ['\\', 'u', '0', '0', hexDigitChar (c.toNat / 16), hexDigitChar (c.toNat % 16)]
  else [c]

/-- The escaped body of a JSON string, terminated by the closing quote
(the opening quote is emitted by the caller). -/
def escString : List Char → List Char
  | [] => ['"']
  | c :: cs => escapeChar c ++ escString cs

/-- Decimal digits of a natural number, most significant first. -/
def natChars (n : Nat) : List Char :=
  if n < 10 then [Char.ofNat (48 + n)]
  else natChars (n / 10) ++ [Char.ofNat (48 + n % 10)]
decreasing_by
  exact Nat.div_lt_self (by omega) (by omega)

/-- Decimal form of an integer, with a leading minus sign when negative. -/
def intChars (n : Int) : List Char :=
  if n < 0 then '-' :: natChars n.natAbs else natChars n.toNat

mutual

/-- Serialization (`JSON.stringify`) of a value, as a character list: canonical compact
form with no whitespace. -/
def stringifyChars : Json → List Char
  | Json.null => ['n', 'u', 'l', 'l']
  | Json.bool true => ['t', 'r', 'u', 'e']
  | Json.bool false => ['f', 'a', 'l', 's', 'e']
  | Json.num n => intChars n
  | Json.str s => '"' :: escString s.data
  | Json.arr [] => ['[', ']']
  | Json.arr (v :: vs) => '[' :: (stringifyChars v ++ elemsChars vs)
  | Json.obj [] => ['\x7b', '\x7d']
  | Json.obj ((k, v) :: fs) =>
      '\x7b' :: '"' :: (escString k.data ++ ':' :: (stringifyChars v ++ fieldsChars fs))

/-- The serialized tail of an array after its first element: each further
element preceded by a comma, then the closing bracket. -/
def elemsChars : List Json → List Char
  | [] => [']']
  | v :: vs => ',' :: (stringifyChars v ++ elemsChars vs)

/-- The serialized tail of an object after its first field: each further
field preceded by a comma, then the closing brace. -/
def fieldsChars : List (String × Json) → List Char
  | [] => ['\x7d']
  | (k, v) :: fs => ',' :: '"' :: (escString k.data ++ ':' :: (stringifyChars v ++ fieldsChars fs))

end

/-- Serialization (`JSON.stringify`) of a value, as a string. -/
def stringifyJson (v : Json) : String :=
  String.mk (stringifyChars v)

/-- Skip JSON insignificant whitespace (space, tab, line feed, carriage
return), as `JSON.parse` does between tokens. -/
def skipWs : List Char → List Char
  | [] => []
  | c :: rest =>
      if c = ' ' ∨ c = '\t' ∨ c = '\n' ∨ c = '\r' then skipWs rest else c :: rest

/-- Value of one hexadecimal digit character, if it is one. -/
def hexVal (c : Char) : Option Nat :=
  if '0' ≤ c ∧ c ≤ '9' then some (c.toNat - 48)
  else if 'a' ≤ c ∧ c ≤ 'f' then some (c.toNat - 87)
  else if 'A' ≤ c ∧ c ≤ 'F' then some (c.toNat - 55)
  else none

/-- The single-character JSON string escapes. -/
def simpleEsc (c : Char) : Option Char :=
  if c = '"' then some '"'
  else if c = '\\' then some '\\'
  else if c = '/' then some '/'
  else if c = 'b' then some '\x08'
  else if c = 'f' then some '\x0c'
  else if c = 'n' then some '\n'
  else if c = 'r' then some '\r'
  else if c = 't' then some '\t'
  else none

/-- Value of four hexadecimal digit characters (exactly four). -/
def hexVal4 : List Char → Option Nat
  | [h1, h2, h3, h4] =>
    match hexVal h1, hexVal h2, hexVal h3, hexVal h4 with
    | some a, some b, some c, some d => some (((a * 16 + b) * 16 + c) * 16 + d)
    | _, _, _, _ => none
  | _ => none

/-- Parse the body of a JSON string after the opening quote, up to and
including the closing quote; returns the decoded characters and the
remaining input. -/
def parseStrChars : Nat → List Char → Option (List Char × List Char)
  | 0, _ => none
  | _, [] => none
  | Nat.succ fuel, c :: rest =>
    if c = '"' then some ([], rest)
    else if c = '\\' then
      match rest with
      | [] => none
      | e :: rest2 =>
        if e = 'u' then
          match hexVal4 (rest2.take 4), parseStrChars fuel (rest2.drop 4) with
          | some n, some (cs, r) => some (Char.ofNat n :: cs, r)
          | _, _ => none
        else
          match simpleEsc e, parseStrChars fuel rest2 with
          | some c2, some (cs, r) => some (c2 :: cs, r)
          | _, _ => none
    else
      match parseStrChars fuel rest with
      | some (cs, r) => some (c :: cs, r)
      | none => none

/-- Fold decimal digit characters into a number, stopping at the first
non-digit; returns the accumulated value and the remaining input. -/
def digitsToNum (acc : Nat) : List Char → Nat × List Char
  | [] => (acc, [])
  | c :: rest =>
      if c.isDigit then digitsToNum (acc * 10 + (c.toNat - 48)) rest
      else (acc, c :: rest)

/-- Parse a nonempty run of decimal digits. -/
def parseNatNum : List Char → Option (Nat × List Char)
  | [] => none
  | c :: rest =>
      if c.isDigit then some (digitsToNum (c.toNat - 48) rest) else none

/-- Require `pat` as a literal prefix of the input and return the rest. -/
def stripLit (pat : List Char) (l : List Char) : Option (List Char) :=
  match pat, l with
  | [], rest => some rest
  | p :: ps, c :: rest => if c = p then stripLit ps rest else none
  | _ :: _, [] => none

mutual

/-- Parsing (`JSON.parse`) of one value (fuel-indexed recursion): skips leading
whitespace, then dispatches on the first character. -/
def parseVal : Nat → List Char → Option (Json × List Char)
  | 0, _ => none
  | Nat.succ fuel, l =>
    match skipWs l with
    | [] => none
    | c :: rest =>
      if c = '"' then
        match parseStrChars (rest.length + 1) rest with
        | some (cs, r) => some (Json.str (String.mk cs), r)
        | none => none
      else if c = '[' then
        if (skipWs rest).head? = some ']' then some (Json.arr [], (skipWs rest).tail)
        else
          match parseElems fuel (skipWs rest) with
          | some (vs, r2) => some (Json.arr vs, r2)
          | none => none
      else if c = '\x7b' then
        if (skipWs rest).head? = some '\x7d' then some (Json.obj [], (skipWs rest).tail)
        else
          match parseFields fuel (skipWs rest) with
          | some (fs, r2) => some (Json.obj fs, r2)
          | none => none
      else if c = 't' then
        match stripLit [ 'r', 'u', 'e'] rest with
        | some r2 => some (Json.bool true, r2)
        | none => none
      else if c = 'f' then
        match stripLit [ 'a', 'l', 's', 'e'] rest with
        | some r2 => some (Json.bool false, r2)
        | none => none
      else if c = 'n' then
        match stripLit [ 'u', 'l', 'l'] rest with
        | some r2 => some (Json.null, r2)
        | none => none
      else if c = '-' then
        match parseNatNum rest with
        | some (m, r2) => some (Json.num (-(m : Int)), r2)
        | none => none
      else
        match parseNatNum (c :: rest) with
        | some (m, r2) => some (Json.num (m : Int), r2)
        | none => none

/-- The elements of a nonempty JSON array after the opening bracket:
a value, then either a comma and more elements or the closing bracket. -/
def parseElems : Nat → List Char → Option (List Json × List Char)
  | 0, _ => none
  | Nat.succ fuel, l =>
    match parseVal fuel l with
    | none => none
    | some (v, r) =>
      if (skipWs r).head? = some ']' then some ([v], (skipWs r).tail)
      else if (skipWs r).head? = some ',' then
        match parseElems fuel (skipWs r).tail with
        | some (vs, r3) => some (v :: vs, r3)
        | none => none
      else none

/-- The fields of a nonempty JSON object after the opening brace:
a quoted key, a colon, a value, then either a comma and more fields or
the closing brace. -/
def parseFields : Nat → List Char → Option (List (String × Json) × List Char)
  | 0, _ => none
  | Nat.succ fuel, l =>
    if (skipWs l).head? = some '"' then
      match parseStrChars ((skipWs l).tail.length + 1) (skipWs l).tail with
      | none => none
      | some (ks, r) =>
        if (skipWs r).head? = some ':' then
          match parseVal fuel (skipWs r).tail with
          | none => none
          | some (v, r3) =>
            if (skipWs r3).head? = some '\x7d' then some ([(String.mk ks, v)], (skipWs r3).tail)
            else if (skipWs r3).head? = some ',' then
              match parseFields fuel (skipWs r3).tail with
              | some (fs, r5) => some ((String.mk ks, v) :: fs, r5)
              | none => none
            else none
        else none
    else none

end

/-- Parsing (`JSON.parse`) of a whole string: parse one value with enough fuel and
require only whitespace to remain; `none` models the thrown
`SyntaxError`. -/
def parseJson (s : String) : Option Json :=
  match parseVal (2 * s.data.length + 2) s.data with
  | some (v, rest) => if skipWs rest = [] then some v else none
  | none => none

-- ### Persistence adapter and the send operation

/-- JSON encoding of a role, as `JSON.stringify` renders the string
literals of `type MessageRole`. -/
def encodeRole : Role → String
  | Role.user => "user"
  | Role.assistant => "assistant"
  | Role.system => "system"

/-- JSON encoding of one `Message` record, field order as declared in the
source (`role` then `content`). -/
def encodeMessage (m : Message) : Json :=
  Json.obj [("role", Json.str (encodeRole m.role)), ("content", Json.str m.content)]

/-- Embedding of `saveConversationHistory` from `src/app/page.tsx` applied to a live
transcript: `localStorage.setItem('conversationHistory', JSON.stringify(history))`. -/
def saveConversationHistory (history : List Message) : String :=
  stringifyJson (Json.arr (history.map encodeMessage))

/-- Re-serialization of a restored transcript: after
`loadConversationHistory` the state holds the raw parsed array elements
(the source performs no per-record validation), and a later save
stringifies exactly those elements. -/
def resaveRestored (elems : List Json) : String :=
  stringifyJson (Json.arr elems)

/-- Embedding of `loadConversationHistory` from `src/app/page.tsx` as a function of the
stored value under the key: the first component is the restored transcript
(`some elems` when `setMessages(parsedHistory)` runs, `none` otherwise,
leaving the transcript empty at session start), the second is the stored
value after the call. The `if (storedHistory)` truthiness guard skips the
whole block when the stored value is the empty string (a falsy string),
leaving both the transcript and the key untouched; past the guard,
`JSON.parse` throwing triggers `localStorage.removeItem`, and nothing
else touches the key. -/
def loadConversationHistory (stored : Option String) : Option (List Json) × Option String :=
  match stored with
  | none => (none, none)
  | some s =>
    if s = "" then (none, some s)
    else
      match parseJson s with
      | none => (none, none)
      | some (Json.arr l) => (some l, some s)
      | some _ => (none, some s)

/-- The spec's structural validity predicate, stated for comparison with
the code. Modelled from the spec: a Message-shaped record is an object
with a recognized `role` (one of the role literals) and a string
`content`. -/
def isMessageRecord : Json → Bool
  | Json.obj [("role", Json.str r), ("content", Json.str _)] =>
      r = "user" ∨ r = "assistant" ∨ r = "system"
  | _ => false

/-- The full observable state of the `Chat` component in
`src/app/page.tsx`: the transcript, the busy flag, the transient error
string, the streamed-response buffer, and the stored snapshot under the
`conversationHistory` key. -/
structure ChatState where
  messages : List Message
  isTyping : Bool
  error : Option String
  currentResponse : String
  store : Option String
deriving DecidableEq, Repr

/-- The outcome of the inference call made inside `handleSendMessage`:
either the stream completes with a list of deltas, or the call fails
(transport error, non-success status, or missing credential) with the
`Error` message the thrown exception carries. -/
inductive Outcome where
  | success (deltas : List String)
  | failure (errMsg : String)
deriving DecidableEq, Repr

/-- The synthetic assistant apology turn built in the catch block of
`handleSendMessage`. -/
def errResponse (errMsg : String) : Message :=
  ⟨Role.assistant, "Desculpe, ocorreu um erro: " ++ errMsg ++ ". Por favor, tente novamente."⟩

/-- The state of `handleSendMessage` at the moment the inference call is
issued (after `setError(null)`, validation, the user-turn append,
`setIsTyping(true)` and `setCurrentResponse('')`); meaningful only for
inputs the gate accepts. -/
def sendMid (st : ChatState) (message : String) : ChatState :=
  { st with
      error := none
      messages := st.messages ++ [⟨Role.user, message⟩]
      isTyping := true
      currentResponse := "" }

/-- Embedding of `handleSendMessage` from `src/app/page.tsx`, as a state transition
parameterized by the outcome of the inference call. Rejected inputs only
record the validation reason; a successful call appends the assistant
turn, truncates to the window and saves; a failed call records the error,
appends the apology turn (no truncation) and saves; both paths end with
the `finally` block clearing the busy flag and the stream buffer. -/
def handleSendMessage (st : ChatState) (message : String) (o : Outcome) : ChatState :=
  match validateMessage st.isTyping message with
  | some reason => { st with error := some reason }
  | none =>
    let st1 := sendMid st message
    match o with
    | Outcome.success deltas =>
      let finalResponse := streamFinal deltas
      let updated := sliceLast MAX_HISTORY_LENGTH (st1.messages ++ [⟨Role.assistant, finalResponse⟩])
      { st1 with
          messages := updated
          store := some (saveConversationHistory updated)
          isTyping := false
          currentResponse := "" }
    | Outcome.failure errMsg =>
      let updated := st1.messages ++ [errResponse errMsg]
      { st1 with
          error := some errMsg
          messages := updated
          store := some (saveConversationHistory updated)
          isTyping := false
          currentResponse := "" }

/-- The input after a serialized number must not continue with a digit
(numbers are delimiter-terminated). -/
def nextNotDigit : List Char → Bool
  | [] => true
  | c :: _ => !c.isDigit

mutual

/-- Fuel bound for parsing one serialized value. -/
def szV : Json → Nat
  | Json.null => 1
  | Json.bool _ => 1
  | Json.num _ => 1
  | Json.str _ => 1
  | Json.arr l => 1 + szE l
  | Json.obj fs => 1 + szF fs

/-- Fuel bound for parsing a serialized array tail. -/
def szE : List Json → Nat
  | [] => 1
  | v :: vs => 1 + szV v + szE vs

/-- Fuel bound for parsing a serialized object tail. -/
def szF : List (String × Json) → Nat
  | [] => 1
  | (_, v) :: fs => 1 + szV v + szF fs

end

-- ### Request formatting (C5) and remaining definitions

/-- Constant `SYSTEM_PROMPT` from `src/app/page.tsx` (template literal, three
lines). -/
def SYSTEM_PROMPT : String :=
  "Você é um assistente de IA especializado em fornecer respostas claras, objetivas e consistentes.\nMantenha sempre o contexto da conversa e evite contradições.\nResponda sempre em português brasileiro de forma concisa e direta."

/-- Constant `SYSTEM_PROMPT` from the `src/unnamed/part_000` variant (six lines). -/
def SYSTEM_PROMPT_PART0 : String :=
  "Você é um assistente de IA especializado em fornecer respostas claras, objetivas e consistentes.\nMantenha sempre o contexto da conversa e evite contradições.\nResponda sempre em português brasileiro de forma concisa e direta.\nSe não souber a resposta, diga claramente que não sabe.\nEvite respostas vagas ou ambíguas.\nMantenha um tom profissional e amigável."

/-- The instruction-delimiter framing applied to user text:
a template literal producing the bracketed instruction form. -/
def wrapInst (text : String) : String :=
  "[INST] " ++ text ++ " [/INST]"

/-- The per-turn map inside `formattedMessages` (`streamResponse` in
`src/app/page.tsx`): a user turn is wrapped in the instruction framing,
any other turn passes through unchanged. -/
def formatTurn (msg : Message) : Message :=
  match msg.role with
  | Role.user => ⟨Role.user, wrapInst msg.content⟩
  | _ => msg

/-- The list `formattedMessages` from `streamResponse` in `src/app/page.tsx`:
the system prompt, then the prior history with user turns wrapped, then
the new message wrapped; the history is used as given (no window applied
here). -/
def formattedMessages (message : String) (history : List Message) : List Message :=
  ⟨Role.system, SYSTEM_PROMPT⟩ :: (history.map formatTurn ++ [⟨Role.user, wrapInst message⟩])

/-- The list `formattedMessages` from `queryAPI` in `src/unnamed/part_000`: same
structure, but the history is first sliced to the last
`MAX_HISTORY_LENGTH` entries. -/
def formattedMessagesPart0 (message : String) (history : List Message) : List Message :=
  ⟨Role.system, SYSTEM_PROMPT_PART0⟩ ::
    ((sliceLast MAX_HISTORY_LENGTH history).map formatTurn ++ [⟨Role.user, wrapInst message⟩])

/-- Number of assistant-role turns in a transcript. -/
def assistantCount (l : List Message) : Nat :=
  (l.filter (fun m =>
    match m.role with
    | Role.assistant => true
    | _ => false)).length

-- ### Theorems

-- ### Auxiliary lemmas

theorem str_append_empty (s : String) : s ++ "" = s := by
  cases s with
  | mk data =>
    show String.mk (data ++ []) = String.mk data
    rw [List.append_nil]

theorem prefix_head_eq {l m : List α} (h : l <+: m) (hl : 0 < l.length) (hm : 0 < m.length) :
    l.get ⟨0, hl⟩ = m.get ⟨0, hm⟩ := by
  obtain ⟨r, rfl⟩ := h
  cases l with
  | nil => simp at hl
  | cons a t => rfl

theorem trimChars_idem (l : List Char) : trimChars (trimChars l) = trimChars l := by
  unfold trimChars trimRightChars
  set m := l.dropWhile Char.isWhitespace with hm
  have hdrop : (m.rdropWhile Char.isWhitespace).dropWhile Char.isWhitespace
      = m.rdropWhile Char.isWhitespace := by
    rw [List.dropWhile_eq_self_iff]
    intro hpos
    have hp := List.rdropWhile_prefix Char.isWhitespace m
    have hmpos : 0 < m.length := by
      have hle := hp.length_le
      omega
    rw [prefix_head_eq hp hpos hmpos]
    have := List.dropWhile_get_zero_not Char.isWhitespace l (by rw [← hm]; exact hmpos)
    simpa [← hm] using this
  rw [hdrop, List.rdropWhile_idempotent]

theorem jsTrim_idem (s : String) : jsTrim (jsTrim s) = jsTrim s := by
  unfold jsTrim
  rw [trimChars_idem]

/-- The running buffer and the exposed buffer coincide and always hold
the concatenation of the deltas folded so far. -/
theorem runStream_eq_concat (deltas : List String) :
    runStream deltas = (concatAll deltas, concatAll deltas) := by
  unfold runStream concatAll
  suffices h : ∀ b : String, deltas.foldl streamStep (b, b)
      = (deltas.foldl (fun a c => a ++ c) b, deltas.foldl (fun a c => a ++ c) b) by
    exact h ""
  induction deltas with
  | nil => intro b; rfl
  | cons d rest ih =>
    intro b
    by_cases hd : d = ""
    · subst hd
      simp only [List.foldl_cons, streamStep, if_pos rfl, str_append_empty]
      exact ih b
    · simp only [List.foldl_cons, streamStep, if_neg hd]
      exact ih (b ++ d)

/-- C2: `validateMessage` rejects exactly when the busy flag is set, the
text is empty after trimming, or the text exceeds 500 characters; every
other input is accepted. -/
theorem validateMessage_rejects_iff (isTyping : Bool) (message : String) :
    validateMessage isTyping message ≠ none ↔
      (isTyping = true ∨ jsTrim message = "" ∨ message.length > MAX_MESSAGE_LENGTH) := by
  unfold validateMessage
  by_cases h1 : isTyping
  · simp [h1]
  · by_cases h2 : jsTrim message = ""
    · simp [h1, h2]
    · by_cases h3 : message.length > MAX_MESSAGE_LENGTH
      · simp [h1, h2, h3]
      · simp [h1, h2, h3]

/-- C3: streaming accumulation concatenates deltas in order: after
folding the first `i` deltas the exposed buffer equals the concatenation
of those deltas, and the final returned value is the trimmed
concatenation of all deltas. -/
theorem streamResponse_accumulates (deltas : List String) (i : Nat) :
    (runStream (deltas.take i)).2 = concatAll (deltas.take i) ∧
      streamFinal deltas = jsTrim (concatAll deltas) := by
  constructor
  · rw [runStream_eq_concat]
  · unfold streamFinal
    rw [runStream_eq_concat]

/-- C10: whenever the chat-input submit handler invokes `onSendMessage`,
the argument is exactly the trimmed input, it is non-empty, and it
carries no leading or trailing whitespace (trimming it again changes
nothing). -/
theorem handleSubmit_trimmed (input : String) (disabled : Bool) (t : String)
    (h : handleSubmit input disabled = some t) :
    t = jsTrim input ∧ t ≠ "" ∧ jsTrim t = t := by
  unfold handleSubmit at h
  by_cases hc : jsTrim input ≠ "" ∧ disabled = false
  · rw [if_pos hc] at h
    obtain ⟨h1, _⟩ := hc
    cases h
    exact ⟨rfl, h1, jsTrim_idem input⟩
  · rw [if_neg hc] at h
    cases h

/-- Witness for C10 at a concrete input: submitting a padded "oi" with
the input enabled passes exactly the trimmed text through. -/
theorem handleSubmit_trimmed_witness :
    handleSubmit "  oi " false = some "oi" ∧
      ("oi" = jsTrim "  oi " ∧ "oi" ≠ "" ∧ jsTrim "oi" = "oi") := by
  refine ⟨by decide, handleSubmit_trimmed "  oi " false "oi" (by decide)⟩

theorem sliceLast_length (n : Nat) (l : List α) :
    (sliceLast n l).length = min l.length n := by
  unfold sliceLast
  rw [List.length_drop]
  omega

theorem sliceLast_is_suffix (n : Nat) (l : List α) : sliceLast n l <:+ l := by
  unfold sliceLast
  exact List.drop_suffix _ _

theorem sliceLast_of_length_le {n : Nat} {l : List α} (h : l.length ≤ n) :
    sliceLast n l = l := by
  unfold sliceLast
  have : l.length - n = 0 := by omega
  rw [this, List.drop_zero]

theorem sliceLast_suffix_eq {n : Nat} {s h : List α} (hsuf : s <:+ h)
    (hlen : n ≤ s.length) : sliceLast n s = sliceLast n h := by
  obtain ⟨pre, rfl⟩ := hsuf
  unfold sliceLast
  rw [List.length_append]
  have h1 : pre.length + s.length - n = pre.length + (s.length - n) := by omega
  rw [h1, List.drop_append]

/-- Invariant of the append sequence: the live transcript is always a
suffix of the unbounded history, and is either the whole history (nothing
dropped yet) or at least `MAX_HISTORY_LENGTH` long. -/
theorem applyOps_invariant (init : List Message) (ops : List AppendOp) :
    applyOps init ops <:+ init ++ appendedMsgs ops ∧
      (applyOps init ops = init ++ appendedMsgs ops ∨
        MAX_HISTORY_LENGTH ≤ (applyOps init ops).length) := by
  induction ops using List.reverseRecOn with
  | nil =>
    constructor
    · simp [applyOps, appendedMsgs]
    · left; simp [applyOps, appendedMsgs]
  | append_singleton ops op ih =>
    obtain ⟨ihsuf, ihcase⟩ := ih
    have happly : applyOps init (ops ++ [op]) = applyOp (applyOps init ops) op := by
      unfold applyOps
      rw [List.foldl_append]
      rfl
    have hmsgs : init ++ appendedMsgs (ops ++ [op])
        = (init ++ appendedMsgs ops) ++ [opMessage op] := by
      unfold appendedMsgs
      rw [List.map_append, ← List.append_assoc]
      rfl
    set s := applyOps init ops with hs
    set hist := init ++ appendedMsgs ops with hh
    cases op with
    | user text =>
      rw [happly, hmsgs]
      constructor
      · show appendUser s text <:+ hist ++ [opMessage (AppendOp.user text)]
        unfold appendUser
        obtain ⟨pre, hpre⟩ := ihsuf
        exact ⟨pre, by rw [← List.append_assoc, hpre]; rfl⟩
      · cases ihcase with
        | inl heq =>
          left
          show appendUser s text = hist ++ [opMessage (AppendOp.user text)]
          unfold appendUser
          rw [heq]
          rfl
        | inr hlen =>
          right
          show MAX_HISTORY_LENGTH ≤ (appendUser s text).length
          unfold appendUser
          rw [List.length_append]
          omega
    | assistant text =>
      rw [happly, hmsgs]
      have hsufstep : appendAssistant s text <:+ hist ++ [opMessage (AppendOp.assistant text)] := by
        unfold appendAssistant
        have h1 := sliceLast_is_suffix MAX_HISTORY_LENGTH (s ++ [(⟨Role.assistant, text⟩ : Message)])
        have h2 : s ++ [(⟨Role.assistant, text⟩ : Message)]
            <:+ hist ++ [opMessage (AppendOp.assistant text)] := by
          obtain ⟨pre, hpre⟩ := ihsuf
          exact ⟨pre, by rw [← List.append_assoc, hpre]; rfl⟩
        exact h1.trans h2
      refine ⟨hsufstep, ?_⟩
      by_cases hlen : (s ++ [(⟨Role.assistant, text⟩ : Message)]).length ≤ MAX_HISTORY_LENGTH
      · cases ihcase with
        | inl heq =>
          left
          show appendAssistant s text = hist ++ [opMessage (AppendOp.assistant text)]
          unfold appendAssistant
          rw [sliceLast_of_length_le hlen, heq]
          rfl
        | inr hsl =>
          right
          rw [List.length_append] at hlen
          show MAX_HISTORY_LENGTH ≤ (appendAssistant s text).length
          unfold appendAssistant
          rw [sliceLast_length, List.length_append]
          omega
      · right
        show MAX_HISTORY_LENGTH ≤ (appendAssistant s text).length
        unfold appendAssistant
        rw [sliceLast_length]
        omega

/-- C1 (amended): for every initial transcript, a nonempty sequence of
append operations whose last operation is an assistant append leaves the
transcript equal to the last `min (L + N) W` entries of the unbounded
history (initial transcript followed by all appended turns, in insertion
order); in particular, starting from an empty transcript the length is
`min N W` and the content is exactly the most recent `min N W` appended
turns in original order. Truncation happens on assistant appends only. -/
theorem applyOps_assistant_window (init : List Message) (ops : List AppendOp)
    (h1 : ops ≠ []) (h2 : isAssistantOp (ops.getLast h1) = true) :
    applyOps init ops = sliceLast MAX_HISTORY_LENGTH (init ++ appendedMsgs ops) ∧
      (applyOps init ops).length = min (init.length + ops.length) MAX_HISTORY_LENGTH := by
  have hsplit : ops.dropLast ++ [ops.getLast h1] = ops := List.dropLast_append_getLast h1
  set ops' := ops.dropLast with hops'
  set op := ops.getLast h1 with hop
  have hmain : applyOps init ops = sliceLast MAX_HISTORY_LENGTH (init ++ appendedMsgs ops) := by
    cases hcase : op with
    | user text =>
      rw [hcase] at h2
      simp [isAssistantOp] at h2
    | assistant text =>
      obtain ⟨ihsuf, ihcase⟩ := applyOps_invariant init ops'
      set s := applyOps init ops' with hs
      set hist := init ++ appendedMsgs ops' with hh
      have happly : applyOps init ops = appendAssistant s text := by
        rw [← hsplit, hcase]
        unfold applyOps
        rw [List.foldl_append]
        rfl
      have hmsgs : init ++ appendedMsgs ops
          = hist ++ [(⟨Role.assistant, text⟩ : Message)] := by
        rw [← hsplit, hcase]
        unfold appendedMsgs
        rw [List.map_append, ← List.append_assoc]
        rfl
      rw [happly, hmsgs]
      unfold appendAssistant
      cases ihcase with
      | inl heq => rw [heq]
      | inr hlen =>
        have hsuf2 : s ++ [(⟨Role.assistant, text⟩ : Message)]
            <:+ hist ++ [(⟨Role.assistant, text⟩ : Message)] := by
          obtain ⟨pre, hpre⟩ := ihsuf
          exact ⟨pre, by rw [← List.append_assoc, hpre]⟩
        apply sliceLast_suffix_eq hsuf2
        rw [List.length_append]
        simp only [List.length_cons, List.length_nil]
        omega
  refine ⟨hmain, ?_⟩
  rw [hmain, sliceLast_length, List.length_append]
  unfold appendedMsgs
  rw [List.length_map]

/-- Counterexample to C1 as stated: thirteen consecutive user appends
(no assistant append ever truncates) leave a transcript of length 13,
not `min 13 12 = 12`; truncation does not happen after every append. -/
theorem applyOps_window_claim_cex :
    (applyOps [] (List.replicate 13 (AppendOp.user "x"))).length
      ≠ min (List.replicate 13 (AppendOp.user "x")).length MAX_HISTORY_LENGTH := by
  decide

/-- Witness for the amended C1 at a concrete input: one user append
followed by one assistant append, from the empty transcript. -/
theorem applyOps_assistant_window_witness :
    applyOps [] [AppendOp.user "a", AppendOp.assistant "b"]
        = sliceLast MAX_HISTORY_LENGTH
          ([] ++ appendedMsgs [AppendOp.user "a", AppendOp.assistant "b"]) ∧
      (applyOps [] [AppendOp.user "a", AppendOp.assistant "b"]).length
        = min ((List.length ([] : List Message))
            + (List.length [AppendOp.user "a", AppendOp.assistant "b"])) MAX_HISTORY_LENGTH :=
  applyOps_assistant_window [] [AppendOp.user "a", AppendOp.assistant "b"]
    (by decide) (by decide)

-- ### Round-trip lemmas for the JSON codec

theorem skipWs_cons_not_ws (c : Char) (l : List Char)
    (h : ¬(c = ' ' ∨ c = '\t' ∨ c = '\n' ∨ c = '\r')) : skipWs (c :: l) = c :: l := by
  simp only [skipWs, if_neg h]

theorem stripLit_pre (pat rest : List Char) : stripLit pat (pat ++ rest) = some rest := by
  induction pat with
  | nil => rfl
  | cons p ps ih => simp [stripLit, ih]

theorem hexVal_hexDigitChar (m : Nat) (h : m < 16) : hexVal (hexDigitChar m) = some m := by
  interval_cases m <;> decide

theorem escapeChar_len (c : Char) : 1 ≤ (escapeChar c).length := by
  unfold escapeChar
  split_ifs <;> simp

theorem escString_len (cs : List Char) : cs.length + 1 ≤ (escString cs).length := by
  induction cs with
  | nil => simp [escString]
  | cons c cs ih =>
    show cs.length + 1 + 1 ≤ (escapeChar c ++ escString cs).length
    rw [List.length_append]
    have := escapeChar_len c
    omega

theorem parseStrChars_cons (fuel : Nat) (c : Char) (rest : List Char) :
    parseStrChars (fuel + 1) (c :: rest) =
      (if c = '"' then some ([], rest)
       else if c = '\\' then
         match rest with
         | [] => none
         | e :: rest2 =>
           if e = 'u' then
             match hexVal4 (rest2.take 4), parseStrChars fuel (rest2.drop 4) with
             | some n, some (cs, r) => some (Char.ofNat n :: cs, r)
             | _, _ => none
           else
             match simpleEsc e, parseStrChars fuel rest2 with
             | some c2, some (cs, r) => some (c2 :: cs, r)
             | _, _ => none
       else
         match parseStrChars fuel rest with
         | some (cs, r) => some (c :: cs, r)
         | none => none) := rfl

theorem parseStrChars_simple (fuel : Nat) (e c2 : Char) (tail cs rest : List Char)
    (hu : ¬e = 'u') (he : simpleEsc e = some c2)
    (hrec : parseStrChars fuel tail = some (cs, rest)) :
    parseStrChars (fuel + 1) ('\\' :: e :: tail) = some (c2 :: cs, rest) := by
  rw [parseStrChars_cons]
  rw [if_neg (by decide : ¬('\\' : Char) = '"'), if_pos (rfl : ('\\' : Char) = '\\')]
  simp only [if_neg hu, he, hrec]

theorem parseStrChars_escString (cs : List Char) : ∀ fuel rest, cs.length < fuel →
    parseStrChars fuel (escString cs ++ rest) = some (cs, rest) := by
  induction cs with
  | nil =>
    intro fuel rest h
    cases fuel with
    | zero => omega
    | succ f =>
      show parseStrChars (f + 1) ('"' :: rest) = some ([], rest)
      rw [parseStrChars_cons]
      rw [if_pos (rfl : ('"' : Char) = '"')]
  | cons c cs ih =>
    intro fuel rest h
    cases fuel with
    | zero => omega
    | succ f =>
      have hf : cs.length < f := by
        simp only [List.length_cons] at h
        omega
      have ihf := ih f rest hf
      show parseStrChars (f + 1) ((escapeChar c ++ escString cs) ++ rest) = some (c :: cs, rest)
      rw [List.append_assoc]
      by_cases h1 : c = '"'
      · subst h1
        exact parseStrChars_simple f '"' '"' _ cs rest (by decide) (by decide) ihf
      · by_cases h2 : c = '\\'
        · subst h2
          exact parseStrChars_simple f '\\' '\\' _ cs rest (by decide) (by decide) ihf
        · by_cases h3 : c = '\x08'
          · subst h3
            exact parseStrChars_simple f 'b' '\x08' _ cs rest (by decide) (by decide) ihf
          · by_cases h4 : c = '\x0c'
            · subst h4
              exact parseStrChars_simple f 'f' '\x0c' _ cs rest (by decide) (by decide) ihf
            · by_cases h5 : c = '\n'
              · subst h5
                exact parseStrChars_simple f 'n' '\n' _ cs rest (by decide) (by decide) ihf
              · by_cases h6 : c = '\r'
                · subst h6
                  exact parseStrChars_simple f 'r' '\r' _ cs rest (by decide) (by decide) ihf
                · by_cases h7 : c = '\t'
                  · subst h7
                    exact parseStrChars_simple f 't' '\t' _ cs rest (by decide) (by decide) ihf
                  · by_cases h8 : c.toNat < 32
                    · have hesc : escapeChar c
                          = ['\\', 'u', '0', '0', hexDigitChar (c.toNat / 16),
                             hexDigitChar (c.toNat % 16)] := by
                        simp only [escapeChar, if_neg h1, if_neg h2, if_neg h3, if_neg h4,
                          if_neg h5, if_neg h6, if_neg h7, if_pos h8]
                      rw [hesc]
                      show parseStrChars (f + 1)
                          ('\\' :: 'u' :: ('0' :: '0' :: hexDigitChar (c.toNat / 16)
                            :: hexDigitChar (c.toNat % 16) :: (escString cs ++ rest)))
                          = some (c :: cs, rest)
                      rw [parseStrChars_cons]
                      rw [if_neg (by decide : ¬('\\' : Char) = '"'),
                        if_pos (rfl : ('\\' : Char) = '\\')]
                      have hhex : hexVal4 (('0' :: '0' :: hexDigitChar (c.toNat / 16)
                          :: hexDigitChar (c.toNat % 16) :: (escString cs ++ rest)).take 4)
                          = some c.toNat := by
                        show hexVal4 ['0', '0', hexDigitChar (c.toNat / 16),
                          hexDigitChar (c.toNat % 16)] = some c.toNat
                        rw [hexVal4]
                        rw [hexVal_hexDigitChar _ (by omega), hexVal_hexDigitChar _ (by omega)]
                        have h0 : hexVal '0' = some 0 := by decide
                        rw [h0]
                        have hval : ((0 * 16 + 0) * 16 + c.toNat / 16) * 16 + c.toNat % 16
                            = c.toNat := by omega
                        simp only [hval]
                      have hdrop : parseStrChars f (('0' :: '0' :: hexDigitChar (c.toNat / 16)
                          :: hexDigitChar (c.toNat % 16) :: (escString cs ++ rest)).drop 4)
                          = some (cs, rest) := by
                        show parseStrChars f (escString cs ++ rest) = some (cs, rest)
                        exact ihf
                      simp only [if_pos (rfl : ('u' : Char) = 'u'), hhex, hdrop, if_true]
                      show some (Char.ofNat c.toNat :: cs, rest) = some (c :: cs, rest)
                      rw [Char.ofNat_toNat]
                    · have hesc : escapeChar c = [c] := by
                        simp only [escapeChar, if_neg h1, if_neg h2, if_neg h3, if_neg h4,
                          if_neg h5, if_neg h6, if_neg h7, if_neg h8]
                      rw [hesc]
                      show parseStrChars (f + 1) (c :: (escString cs ++ rest)) = some (c :: cs, rest)
                      rw [parseStrChars_cons]
                      rw [if_neg h1, if_neg h2, ihf]

theorem digit_char_is_digit (m : Nat) (h : m < 10) :
    (Char.ofNat (48 + m)).isDigit = true := by
  interval_cases m <;> decide

theorem digit_char_toNat (m : Nat) (h : m < 10) :
    (Char.ofNat (48 + m)).toNat = 48 + m := by
  interval_cases m <;> decide

theorem digit_char_not_special (m : Nat) (h : m < 10) :
    ¬(Char.ofNat (48 + m) = ' ' ∨ Char.ofNat (48 + m) = '\t' ∨
        Char.ofNat (48 + m) = '\n' ∨ Char.ofNat (48 + m) = '\r') ∧
      ¬Char.ofNat (48 + m) = '"' ∧ ¬Char.ofNat (48 + m) = '[' ∧
      ¬Char.ofNat (48 + m) = '\x7b' ∧ ¬Char.ofNat (48 + m) = 't' ∧
      ¬Char.ofNat (48 + m) = 'f' ∧ ¬Char.ofNat (48 + m) = 'n' ∧
      ¬Char.ofNat (48 + m) = '-' := by
  interval_cases m <;> exact ⟨by decide, by decide, by decide, by decide, by decide,
    by decide, by decide, by decide⟩

theorem natChars_shape (n : Nat) :
    ∃ m ds, m < 10 ∧ natChars n = Char.ofNat (48 + m) :: ds ∧
      ∀ c ∈ ds, ∃ m2, m2 < 10 ∧ c = Char.ofNat (48 + m2) := by
  induction n using Nat.strong_induction_on with
  | _ n ih =>
    by_cases h : n < 10
    · refine ⟨n, [], h, ?_, by simp⟩
      rw [natChars]
      simp [h]
    · obtain ⟨m, ds, hm, heq, hds⟩ := ih (n / 10) (Nat.div_lt_self (by omega) (by omega))
      refine ⟨m, ds ++ [Char.ofNat (48 + n % 10)], hm, ?_, ?_⟩
      · rw [natChars]
        simp only [if_neg h, heq]
        rfl
      · intro c hc
        rcases List.mem_append.mp hc with hc1 | hc2
        · exact hds c hc1
        · rw [List.mem_singleton.mp hc2]
          exact ⟨n % 10, by omega, rfl⟩

theorem digitsToNum_digits (ds : List Char) (acc : Nat) (rest : List Char)
    (hds : ∀ c ∈ ds, c.isDigit = true) (hrest : nextNotDigit rest = true) :
    digitsToNum acc (ds ++ rest)
      = (ds.foldl (fun a c => a * 10 + (c.toNat - 48)) acc, rest) := by
  induction ds generalizing acc with
  | nil =>
    cases rest with
    | nil => rfl
    | cons c tl =>
      have hc : c.isDigit = false := by
        simp only [nextNotDigit, Bool.not_eq_true'] at hrest
        exact hrest
      simp [digitsToNum, hc]
  | cons d ds ih =>
    have hd : d.isDigit = true := hds d (by simp)
    show digitsToNum acc (d :: (ds ++ rest)) = _
    simp only [digitsToNum, hd, if_pos]
    rw [ih _ (fun c hc => hds c (by simp [hc]))]
    rfl

theorem natChars_foldl (n : Nat) (acc : Nat) :
    (natChars n).foldl (fun a c => a * 10 + (c.toNat - 48)) acc
      = acc * 10 ^ (natChars n).length + n := by
  induction n using Nat.strong_induction_on generalizing acc with
  | _ n ih =>
    by_cases h : n < 10
    · rw [natChars]
      simp only [if_pos h, List.foldl_cons, List.foldl_nil, List.length_cons, List.length_nil]
      rw [digit_char_toNat n h]
      simp [pow_one]
    · rw [natChars]
      simp only [if_neg h]
      rw [List.foldl_append]
      rw [ih (n / 10) (Nat.div_lt_self (by omega) (by omega)) acc]
      simp only [List.foldl_cons, List.foldl_nil, List.length_append, List.length_cons,
        List.length_nil]
      have hmod : (Char.ofNat (48 + n % 10)).toNat = 48 + n % 10 :=
        digit_char_toNat _ (by omega)
      rw [hmod]
      rw [pow_succ, ← Nat.mul_assoc]
      generalize acc * 10 ^ (natChars (n / 10)).length = A
      omega

theorem parseNatNum_natChars (n : Nat) (rest : List Char) (h : nextNotDigit rest = true) :
    parseNatNum (natChars n ++ rest) = some (n, rest) := by
  obtain ⟨m, ds, hm, heq, hds⟩ := natChars_shape n
  rw [heq]
  show parseNatNum (Char.ofNat (48 + m) :: (ds ++ rest)) = some (n, rest)
  have hd : (Char.ofNat (48 + m)).isDigit = true := digit_char_is_digit m hm
  simp only [parseNatNum, hd, if_pos]
  have hds' : ∀ c ∈ ds, c.isDigit = true := by
    intro c hc
    obtain ⟨m2, hm2, rfl⟩ := hds c hc
    exact digit_char_is_digit m2 hm2
  rw [digitsToNum_digits ds _ rest hds' h]
  have hfold := natChars_foldl n 0
  rw [heq] at hfold
  simp only [List.foldl_cons, Nat.zero_mul, Nat.zero_add] at hfold
  rw [digit_char_toNat m hm] at hfold
  have : (Char.ofNat (48 + m)).toNat - 48 = m := by
    rw [digit_char_toNat m hm]
    omega
  rw [this]
  have hm48 : 48 + m - 48 = m := by omega
  rw [hm48] at hfold
  rw [hfold]

theorem szV_pos (v : Json) : 1 ≤ szV v := by
  cases v <;> simp [szV]

theorem szE_pos (l : List Json) : 1 ≤ szE l := by
  cases l with
  | nil => simp [szE]
  | cons v vs =>
    simp only [szE]
    omega

theorem szF_pos (l : List (String × Json)) : 1 ≤ szF l := by
  cases l with
  | nil => simp [szF]
  | cons f fs =>
    obtain ⟨k, v⟩ := f
    simp only [szF]
    omega

theorem digit_char_not_closing (m : Nat) (h : m < 10) :
    ¬Char.ofNat (48 + m) = ']' ∧ ¬Char.ofNat (48 + m) = '\x7d' := by
  interval_cases m <;> exact ⟨by decide, by decide⟩

theorem stringify_head_spec (v : Json) :
    ∃ c tl, stringifyChars v = c :: tl ∧
      ¬(c = ' ' ∨ c = '\t' ∨ c = '\n' ∨ c = '\r') ∧ ¬c = ']' ∧ ¬c = '\x7d' := by
  cases v with
  | null => refine ⟨'n', _, rfl, ?_, ?_, ?_⟩ <;> decide
  | bool b =>
    cases b with
    | true => refine ⟨'t', _, rfl, ?_, ?_, ?_⟩ <;> decide
    | false => refine ⟨'f', _, rfl, ?_, ?_, ?_⟩ <;> decide
  | num n =>
    show ∃ c tl, intChars n = c :: tl ∧ _
    by_cases h : n < 0
    · exact ⟨'-', natChars n.natAbs, by simp [intChars, h], by decide, by decide, by decide⟩
    · obtain ⟨m, ds, hm, heq, _⟩ := natChars_shape n.toNat
      refine ⟨Char.ofNat (48 + m), ds, ?_, ?_, ?_, ?_⟩
      · simp [intChars, h, heq]
      · exact (digit_char_not_special m hm).1
      · exact (digit_char_not_closing m hm).1
      · exact (digit_char_not_closing m hm).2
  | str s => refine ⟨'"', _, rfl, ?_, ?_, ?_⟩ <;> decide
  | arr l =>
    cases l with
    | nil => refine ⟨'[', _, rfl, ?_, ?_, ?_⟩ <;> decide
    | cons v vs => refine ⟨'[', _, rfl, ?_, ?_, ?_⟩ <;> decide
  | obj fs =>
    cases fs with
    | nil => refine ⟨'\x7b', _, rfl, ?_, ?_, ?_⟩ <;> decide
    | cons f fs2 =>
      obtain ⟨k, v⟩ := f
      refine ⟨'\x7b', _, rfl, ?_, ?_, ?_⟩ <;> decide

/-- The printer-parser round trip for the JSON codec model, by induction
on the parsing fuel: a serialized value (or array/object tail), followed
by any remainder that does not start with a digit, parses back to exactly
the value with the remainder untouched. -/
theorem parse_stringify_round (fuel : Nat) :
    (∀ v rest, szV v ≤ fuel → nextNotDigit rest = true →
        parseVal fuel (stringifyChars v ++ rest) = some (v, rest)) ∧
    (∀ v vs rest, szV v + szE vs ≤ fuel → nextNotDigit rest = true →
        parseElems fuel (stringifyChars v ++ (elemsChars vs ++ rest)) = some (v :: vs, rest)) ∧
    (∀ k v fs rest, szV v + szF fs ≤ fuel → nextNotDigit rest = true →
        parseFields fuel
            ('"' :: (escString k.data ++ (':' :: (stringifyChars v ++ (fieldsChars fs ++ rest)))))
          = some ((k, v) :: fs, rest)) := by
  induction fuel with
  | zero =>
    refine ⟨?_, ?_, ?_⟩
    · intro v rest hsz _
      have := szV_pos v
      omega
    · intro v vs rest hsz _
      have := szV_pos v
      have := szE_pos vs
      omega
    · intro k v fs rest hsz _
      have := szV_pos v
      have := szF_pos fs
      omega
  | succ fuel ih =>
    obtain ⟨ihV, ihE, ihF⟩ := ih
    refine ⟨?_, ?_, ?_⟩
    · intro v rest hsz hrest
      cases v with
      | null =>
        show parseVal (fuel+1) ('n' :: ('u' :: 'l' :: 'l' :: rest)) = some (Json.null, rest)
        rw [parseVal]
        rw [skipWs_cons_not_ws _ _ (by decide)]
        simp only [if_neg (by decide : ¬('n' : Char) = '"'),
          if_neg (by decide : ¬('n' : Char) = '['), if_neg (by decide : ¬('n' : Char) = '\x7b'),
          if_neg (by decide : ¬('n' : Char) = 't'), if_neg (by decide : ¬('n' : Char) = 'f'),
          if_pos (rfl : ('n' : Char) = 'n')]
        have hs := stripLit_pre [ 'u', 'l', 'l'] rest
        simp only [List.cons_append, List.nil_append] at hs
        rw [hs]
        rfl
      | bool b =>
        cases b with
        | true =>
          show parseVal (fuel+1) ('t' :: ('r' :: 'u' :: 'e' :: rest)) = some (Json.bool true, rest)
          rw [parseVal]
          rw [skipWs_cons_not_ws _ _ (by decide)]
          simp only [if_neg (by decide : ¬('t' : Char) = '"'),
            if_neg (by decide : ¬('t' : Char) = '['), if_neg (by decide : ¬('t' : Char) = '\x7b'),
            if_pos (rfl : ('t' : Char) = 't')]
          have hs := stripLit_pre [ 'r', 'u', 'e'] rest
          simp only [List.cons_append, List.nil_append] at hs
          rw [hs]
          rfl
        | false =>
          show parseVal (fuel+1) ('f' :: ('a' :: 'l' :: 's' :: 'e' :: rest))
            = some (Json.bool false, rest)
          rw [parseVal]
          rw [skipWs_cons_not_ws _ _ (by decide)]
          simp only [if_neg (by decide : ¬('f' : Char) = '"'),
            if_neg (by decide : ¬('f' : Char) = '['), if_neg (by decide : ¬('f' : Char) = '\x7b'),
            if_neg (by decide : ¬('f' : Char) = 't'), if_pos (rfl : ('f' : Char) = 'f')]
          have hs := stripLit_pre [ 'a', 'l', 's', 'e'] rest
          simp only [List.cons_append, List.nil_append] at hs
          rw [hs]
          rfl
      | num n =>
        show parseVal (fuel+1) (intChars n ++ rest) = some (Json.num n, rest)
        by_cases h : n < 0
        · rw [intChars, if_pos h]
          show parseVal (fuel+1) ('-' :: (natChars n.natAbs ++ rest)) = some (Json.num n, rest)
          rw [parseVal]
          rw [skipWs_cons_not_ws _ _ (by decide)]
          simp only [if_neg (by decide : ¬('-' : Char) = '"'),
            if_neg (by decide : ¬('-' : Char) = '['), if_neg (by decide : ¬('-' : Char) = '\x7b'),
            if_neg (by decide : ¬('-' : Char) = 't'), if_neg (by decide : ¬('-' : Char) = 'f'),
            if_neg (by decide : ¬('-' : Char) = 'n'), if_pos (rfl : ('-' : Char) = '-')]
          rw [parseNatNum_natChars n.natAbs rest hrest]
          show some (Json.num (-(n.natAbs : Int)), rest) = some (Json.num n, rest)
          have : (-(n.natAbs : Int)) = n := by omega
          rw [this]
        · rw [intChars, if_neg h]
          obtain ⟨m, ds, hm, heq, _⟩ := natChars_shape n.toNat
          rw [heq]
          show parseVal (fuel+1) (Char.ofNat (48 + m) :: (ds ++ rest)) = some (Json.num n, rest)
          rw [parseVal]
          rw [skipWs_cons_not_ws _ _ (digit_char_not_special m hm).1]
          obtain ⟨_, hq, hlb, hob, ht, hf, hnn, hmi⟩ := digit_char_not_special m hm
          simp only [if_neg hq, if_neg hlb, if_neg hob, if_neg ht, if_neg hf, if_neg hnn,
            if_neg hmi]
          have hp := parseNatNum_natChars n.toNat rest hrest
          rw [heq] at hp
          simp only [List.cons_append] at hp
          rw [hp]
          show some (Json.num (n.toNat : Int), rest) = some (Json.num n, rest)
          have : ((n.toNat : Nat) : Int) = n := by omega
          rw [this]
      | str s =>
        show parseVal (fuel+1) ('"' :: (escString s.data ++ rest)) = some (Json.str s, rest)
        rw [parseVal]
        rw [skipWs_cons_not_ws _ _ (by decide)]
        simp only [if_pos (rfl : ('"' : Char) = '"')]
        rw [parseStrChars_escString s.data ((escString s.data ++ rest).length + 1) rest
          (by have := escString_len s.data; simp only [List.length_append]; omega)]
        show some (Json.str (String.mk s.data), rest) = some (Json.str s, rest)
        rfl
      | arr l =>
        cases l with
        | nil =>
          show parseVal (fuel+1) ('[' :: (']' :: rest)) = some (Json.arr [], rest)
          rw [parseVal]
          rw [skipWs_cons_not_ws _ _ (by decide)]
          simp only [if_neg (by decide : ¬('[' : Char) = '"'), if_pos (rfl : ('[' : Char) = '[')]
          rw [skipWs_cons_not_ws _ _ (by decide)]
          rfl
        | cons v1 vs =>
          show parseVal (fuel+1) ('[' :: ((stringifyChars v1 ++ elemsChars vs) ++ rest))
            = some (Json.arr (v1 :: vs), rest)
          rw [List.append_assoc]
          obtain ⟨c, tl, hv1, hws, hrb, hcb⟩ := stringify_head_spec v1
          rw [parseVal]
          rw [skipWs_cons_not_ws _ _ (by decide)]
          simp only [if_neg (by decide : ¬('[' : Char) = '"'), if_pos (rfl : ('[' : Char) = '[')]
          rw [hv1]
          simp only [List.cons_append]
          rw [skipWs_cons_not_ws _ _ hws]
          rw [if_neg (by simp [hrb] :
            ¬(c :: (tl ++ (elemsChars vs ++ rest))).head? = some ']')]
          rw [show (c :: (tl ++ (elemsChars vs ++ rest)))
            = (stringifyChars v1 ++ (elemsChars vs ++ rest)) by rw [hv1]; simp]
          rw [ihE v1 vs rest (by simp only [szV, szE] at hsz ⊢; omega) hrest]
          rfl
      | obj fs =>
        cases fs with
        | nil =>
          show parseVal (fuel+1) ('\x7b' :: ('\x7d' :: rest)) = some (Json.obj [], rest)
          rw [parseVal]
          rw [skipWs_cons_not_ws _ _ (by decide)]
          simp only [if_neg (by decide : ¬('\x7b' : Char) = '"'),
            if_neg (by decide : ¬('\x7b' : Char) = '['), if_pos (rfl : ('\x7b' : Char) = '\x7b')]
          rw [skipWs_cons_not_ws _ _ (by decide)]
          rfl
        | cons f fs2 =>
          obtain ⟨k, v1⟩ := f
          show parseVal (fuel+1)
              ('\x7b' :: '"' ::
                ((escString k.data ++ ':' :: (stringifyChars v1 ++ fieldsChars fs2)) ++ rest))
            = some (Json.obj ((k, v1) :: fs2), rest)
          rw [parseVal]
          rw [skipWs_cons_not_ws _ _ (by decide)]
          simp only [if_neg (by decide : ¬('\x7b' : Char) = '"'),
            if_neg (by decide : ¬('\x7b' : Char) = '['), if_pos (rfl : ('\x7b' : Char) = '\x7b')]
          rw [skipWs_cons_not_ws _ _ (by decide)]
          rw [if_neg (by simp :
            ¬('"' :: ((escString k.data ++ ':' :: (stringifyChars v1 ++ fieldsChars fs2)) ++ rest)).head?
              = some '\x7d')]
          have harr : ('"' :: ((escString k.data ++ ':' :: (stringifyChars v1 ++ fieldsChars fs2)) ++ rest))
              = ('"' :: (escString k.data ++ (':' :: (stringifyChars v1 ++ (fieldsChars fs2 ++ rest))))) := by
            simp [List.append_assoc]
          rw [harr]
          rw [ihF k v1 fs2 rest (by simp only [szV, szF] at hsz ⊢; omega) hrest]
          rfl
    · intro v vs rest hsz hrest
      rw [parseElems]
      have hnd : nextNotDigit (elemsChars vs ++ rest) = true := by
        cases vs <;> simp [elemsChars, nextNotDigit]
      rw [ihV v (elemsChars vs ++ rest) (by have := szE_pos vs; omega) hnd]
      dsimp only
      cases vs with
      | nil =>
        have hel : elemsChars ([] : List Json) ++ rest = ']' :: rest := rfl
        rw [hel]
        rw [skipWs_cons_not_ws _ _ (by decide)]
        simp only [List.head?_cons, List.tail_cons, reduceIte]
      | cons v2 vs2 =>
        have hel : elemsChars (v2 :: vs2) ++ rest
            = ',' :: (stringifyChars v2 ++ (elemsChars vs2 ++ rest)) := by
          show (',' :: (stringifyChars v2 ++ elemsChars vs2)) ++ rest = _
          simp [List.append_assoc]
        rw [hel]
        rw [skipWs_cons_not_ws _ _ (by decide)]
        simp only [List.head?_cons, List.tail_cons, reduceIte]
        rw [ihE v2 vs2 rest (by simp only [szE] at hsz; have := szV_pos v; omega) hrest]
        rw [if_neg (by decide : ¬(some ',' : Option Char) = some ']')]
    · intro k v fs rest hsz hrest
      rw [parseFields]
      rw [skipWs_cons_not_ws _ _ (by decide)]
      rw [if_pos (by simp :
        ('"' :: (escString k.data ++ (':' :: (stringifyChars v ++ (fieldsChars fs ++ rest))))).head?
          = some '"')]
      show (match parseStrChars
          ((escString k.data ++ (':' :: (stringifyChars v ++ (fieldsChars fs ++ rest)))).length + 1)
          (escString k.data ++ (':' :: (stringifyChars v ++ (fieldsChars fs ++ rest)))) with
        | none => none
        | some (ks, r) => _) = _
      rw [parseStrChars_escString k.data _ _
        (by have := escString_len k.data; simp only [List.length_append]; omega)]
      show (if (skipWs (':' :: (stringifyChars v ++ (fieldsChars fs ++ rest)))).head? = some ':'
          then _ else _) = _
      rw [skipWs_cons_not_ws _ _ (by decide)]
      rw [if_pos (by simp :
        ((':' :: (stringifyChars v ++ (fieldsChars fs ++ rest)))).head? = some ':')]
      have hnd : nextNotDigit (fieldsChars fs ++ rest) = true := by
        cases fs with
        | nil => simp [fieldsChars, nextNotDigit]
        | cons f fs2 =>
          obtain ⟨k2, v2⟩ := f
          simp [fieldsChars, nextNotDigit]
      show (match parseVal fuel (stringifyChars v ++ (fieldsChars fs ++ rest)) with
        | none => none
        | some (v2, r3) => _) = _
      rw [ihV v (fieldsChars fs ++ rest) (by have := szF_pos fs; omega) hnd]
      dsimp only
      cases fs with
      | nil =>
        have hfl : fieldsChars ([] : List (String × Json)) ++ rest = '\x7d' :: rest := rfl
        rw [hfl]
        rw [skipWs_cons_not_ws _ _ (by decide)]
        simp only [List.head?_cons, List.tail_cons, reduceIte]
      | cons f fs2 =>
        obtain ⟨k2, v2⟩ := f
        have hfl : fieldsChars ((k2, v2) :: fs2) ++ rest
            = ',' :: ('"' :: (escString k2.data ++ (':' :: (stringifyChars v2 ++ (fieldsChars fs2 ++ rest))))) := by
          show (',' :: '"' :: (escString k2.data ++ ':' :: (stringifyChars v2 ++ fieldsChars fs2))) ++ rest = _
          simp [List.append_assoc]
        rw [hfl]
        rw [skipWs_cons_not_ws _ _ (by decide)]
        simp only [List.head?_cons, List.tail_cons, reduceIte]
        rw [ihF k2 v2 fs2 rest (by simp only [szF] at hsz; have := szV_pos v; omega) hrest]
        rw [if_neg (by decide : ¬(some ',' : Option Char) = some '\x7d')]

mutual

theorem szV_le_length : ∀ v : Json, szV v ≤ 2 * (stringifyChars v).length
  | Json.null => by simp [szV, stringifyChars]
  | Json.bool true => by simp [szV, stringifyChars]
  | Json.bool false => by simp [szV, stringifyChars]
  | Json.num n => by
      have h1 : 1 ≤ (intChars n).length := by
        unfold intChars
        by_cases h : n < 0
        · simp [h]
        · obtain ⟨m, ds, _, heq, _⟩ := natChars_shape n.toNat
          simp [h, heq]
      show szV (Json.num n) ≤ 2 * (intChars n).length
      simp only [szV]
      omega
  | Json.str s => by
      show szV (Json.str s) ≤ 2 * ('"' :: escString s.data).length
      simp only [szV, List.length_cons]
      omega
  | Json.arr [] => by simp [szV, szE, stringifyChars]
  | Json.arr (v :: vs) => by
      have h1 := szV_le_length v
      have h2 := szE_le_length vs
      show szV (Json.arr (v :: vs)) ≤ 2 * ('[' :: (stringifyChars v ++ elemsChars vs)).length
      simp only [szV, szE, List.length_cons, List.length_append]
      omega
  | Json.obj [] => by simp [szV, szF, stringifyChars]
  | Json.obj ((k, v) :: fs) => by
      have h1 := szV_le_length v
      have h2 := szF_le_length fs
      show szV (Json.obj ((k, v) :: fs))
        ≤ 2 * ('\x7b' :: '"' :: (escString k.data ++ ':' :: (stringifyChars v ++ fieldsChars fs))).length
      simp only [szV, szF, List.length_cons, List.length_append]
      omega

theorem szE_le_length : ∀ l : List Json, szE l + 1 ≤ 2 * (elemsChars l).length
  | [] => by simp [szE, elemsChars]
  | v :: vs => by
      have h1 := szV_le_length v
      have h2 := szE_le_length vs
      show szE (v :: vs) + 1 ≤ 2 * (',' :: (stringifyChars v ++ elemsChars vs)).length
      simp only [szE, List.length_cons, List.length_append]
      omega

theorem szF_le_length : ∀ l : List (String × Json), szF l + 1 ≤ 2 * (fieldsChars l).length
  | [] => by simp [szF, fieldsChars]
  | (k, v) :: fs => by
      have h1 := szV_le_length v
      have h2 := szF_le_length fs
      show szF ((k, v) :: fs) + 1
        ≤ 2 * (',' :: '"' :: (escString k.data ++ ':' :: (stringifyChars v ++ fieldsChars fs))).length
      simp only [szF, List.length_cons, List.length_append]
      omega

end

/-- The JSON codec model round-trips: parsing a canonically serialized
value yields exactly that value. -/
theorem parseJson_stringifyJson (v : Json) : parseJson (stringifyJson v) = some v := by
  unfold parseJson stringifyJson
  have hV := (parse_stringify_round (2 * (stringifyChars v).length + 2)).1
  have happ := hV v [] (by have := szV_le_length v; omega) (by decide)
  rw [List.append_nil] at happ
  show (match parseVal (2 * (stringifyChars v).length + 2) (stringifyChars v) with
    | some (v, rest) => if skipWs rest = [] then some v else none
    | none => none) = some v
  rw [happ]
  rfl

-- ### Claim theorems: send operation, formatting, persistence

theorem sliceLast_idem (n : Nat) (l : List α) :
    sliceLast n (sliceLast n l) = sliceLast n l := by
  apply sliceLast_of_length_le
  rw [sliceLast_length]
  omega

/-- C4: for every state whose validation gate accepts the message, a
failing inference call leaves the transcript equal to the old transcript
plus the pending user turn and exactly one synthetic assistant turn whose
content starts with the apology marker; the assistant-turn count grows by
exactly one and the busy flag is false on completion. -/
theorem handleSendMessage_failure (st : ChatState) (message errMsg : String)
    (hv : validateMessage st.isTyping message = none) :
    (handleSendMessage st message (Outcome.failure errMsg)).messages
        = st.messages ++ [⟨Role.user, message⟩, errResponse errMsg] ∧
      (errResponse errMsg).role = Role.assistant ∧
      (errResponse errMsg).content
        = "Desculpe, ocorreu um erro: " ++ (errMsg ++ ". Por favor, tente novamente.") ∧
      assistantCount (handleSendMessage st message (Outcome.failure errMsg)).messages
        = assistantCount st.messages + 1 ∧
      (handleSendMessage st message (Outcome.failure errMsg)).isTyping = false := by
  have hmain : handleSendMessage st message (Outcome.failure errMsg)
      = { st with
            error := some errMsg
            messages := (st.messages ++ [⟨Role.user, message⟩]) ++ [errResponse errMsg]
            store := some (saveConversationHistory
              ((st.messages ++ [⟨Role.user, message⟩]) ++ [errResponse errMsg]))
            isTyping := false
            currentResponse := "" } := by
    simp only [handleSendMessage, hv, sendMid]
  refine ⟨?_, rfl, ?_, ?_, ?_⟩
  · rw [hmain]
    simp [List.append_assoc]
  · show ("Desculpe, ocorreu um erro: " ++ errMsg ++ ". Por favor, tente novamente.")
      = "Desculpe, ocorreu um erro: " ++ (errMsg ++ ". Por favor, tente novamente.")
    rw [String.append_assoc]
  · rw [hmain]
    show assistantCount ((st.messages ++ [⟨Role.user, message⟩]) ++ [errResponse errMsg])
      = assistantCount st.messages + 1
    unfold assistantCount
    rw [List.filter_append, List.filter_append]
    simp [errResponse]
  · rw [hmain]

/-- Witness for C4 at a concrete input: a failing call from the empty
idle state appends the user turn and one apology turn. -/
theorem handleSendMessage_failure_witness :
    (handleSendMessage ⟨[], false, none, "", none⟩ "oi" (Outcome.failure "x")).messages
        = [] ++ [⟨Role.user, "oi"⟩, errResponse "x"] ∧
      (errResponse "x").role = Role.assistant ∧
      (errResponse "x").content
        = "Desculpe, ocorreu um erro: " ++ ("x" ++ ". Por favor, tente novamente.") ∧
      assistantCount (handleSendMessage ⟨[], false, none, "", none⟩ "oi"
          (Outcome.failure "x")).messages = assistantCount [] + 1 ∧
      (handleSendMessage ⟨[], false, none, "", none⟩ "oi" (Outcome.failure "x")).isTyping
        = false :=
  handleSendMessage_failure ⟨[], false, none, "", none⟩ "oi" "x" (by decide)

/-- C9: for every accepted send, the busy flag is true at the moment the
inference call is issued and false when the operation completes, whether
the call succeeds or fails. -/
theorem handleSendMessage_busy_flag (st : ChatState) (message : String) (o : Outcome)
    (hv : validateMessage st.isTyping message = none) :
    (sendMid st message).isTyping = true ∧
      (handleSendMessage st message o).isTyping = false := by
  refine ⟨rfl, ?_⟩
  simp only [handleSendMessage, hv]
  cases o <;> rfl

/-- Witness for C9 at a concrete input, for both outcomes. -/
theorem handleSendMessage_busy_flag_witness :
    ((sendMid ⟨[], false, none, "", none⟩ "oi").isTyping = true ∧
        (handleSendMessage ⟨[], false, none, "", none⟩ "oi"
          (Outcome.success ["ol", "á"])).isTyping = false) ∧
      ((sendMid ⟨[], false, none, "", none⟩ "oi").isTyping = true ∧
        (handleSendMessage ⟨[], false, none, "", none⟩ "oi"
          (Outcome.failure "x")).isTyping = false) :=
  ⟨handleSendMessage_busy_flag ⟨[], false, none, "", none⟩ "oi"
      (Outcome.success ["ol", "á"]) (by decide),
    handleSendMessage_busy_flag ⟨[], false, none, "", none⟩ "oi"
      (Outcome.failure "x") (by decide)⟩

/-- C8: a rejected send changes nothing except the transient error string
(the transcript, busy flag, stream buffer and stored snapshot are all
unchanged), and the error field never influences a later send: the next
call behaves as if the error had been cleared. -/
theorem handleSendMessage_rejection_frame (st : ChatState) (message m2 : String)
    (o o2 : Outcome) (r : String) (e : Option String)
    (hv : validateMessage st.isTyping message = some r) :
    handleSendMessage st message o = { st with error := some r } ∧
      handleSendMessage { st with error := e } m2 o2 = handleSendMessage st m2 o2 := by
  obtain ⟨msgs, typ, err, cur, sto⟩ := st
  constructor
  · simp only [handleSendMessage] at hv ⊢
    rw [hv]
  · simp only [handleSendMessage, sendMid]

/-- Witness for C8 at a concrete input: a send while busy only records
the busy-rejection reason, and a stale error value does not affect the
next call. -/
theorem handleSendMessage_rejection_frame_witness :
    handleSendMessage ⟨[], true, none, "", none⟩ "oi" (Outcome.success [])
        = { (⟨[], true, none, "", none⟩ : ChatState) with
            error := some "Aguarde a resposta anterior ser concluída" } ∧
      handleSendMessage { (⟨[], true, none, "", none⟩ : ChatState) with error := some "velho" }
          "tudo bem" (Outcome.failure "x")
        = handleSendMessage ⟨[], true, none, "", none⟩ "tudo bem" (Outcome.failure "x") :=
  handleSendMessage_rejection_frame ⟨[], true, none, "", none⟩ "oi" "tudo bem"
    (Outcome.success []) (Outcome.failure "x") "Aguarde a resposta anterior ser concluída"
    (some "velho") (by decide)

/-- C5 (amended): the request is the system prompt, then the prior turns
with exactly the user turns wrapped in the instruction framing (assistant
turns pass through unchanged), then the new message wrapped; the
`part_000` variant additionally windows the history to the last
`MAX_HISTORY_LENGTH` entries, while the main variant uses the history it
is given as-is. -/
theorem formattedMessages_structure (message : String) (history : List Message) (i : Nat)
    (hi : i < history.length) :
    (formattedMessages message history).head? = some ⟨Role.system, SYSTEM_PROMPT⟩ ∧
      (formattedMessages message history).getLast? = some ⟨Role.user, wrapInst message⟩ ∧
      (formattedMessages message history).length = history.length + 2 ∧
      (formattedMessages message history)[i + 1]?
        = some (formatTurn (history.get ⟨i, hi⟩)) ∧
      (∀ m : Message, formatTurn m
        = if m.role = Role.user then ⟨Role.user, wrapInst m.content⟩ else m) ∧
      formattedMessagesPart0 message history
        = formattedMessagesPart0 message (sliceLast MAX_HISTORY_LENGTH history) := by
  refine ⟨rfl, ?_, ?_, ?_, ?_, ?_⟩
  · show ((⟨Role.system, SYSTEM_PROMPT⟩ : Message)
      :: (history.map formatTurn ++ [⟨Role.user, wrapInst message⟩])).getLast? = _
    rw [← List.cons_append, List.getLast?_concat]
  · show ((⟨Role.system, SYSTEM_PROMPT⟩ : Message)
      :: (history.map formatTurn ++ [⟨Role.user, wrapInst message⟩])).length = _
    simp
  · show ((⟨Role.system, SYSTEM_PROMPT⟩ : Message)
      :: (history.map formatTurn ++ [⟨Role.user, wrapInst message⟩]))[i + 1]? = _
    rw [List.getElem?_cons_succ]
    rw [List.getElem?_append]
    rw [if_pos (show i < (List.map formatTurn history).length by
      rw [List.length_map]; exact hi)]
    rw [List.getElem?_map]
    rw [List.getElem?_eq_getElem hi]
    rfl
  · intro m
    obtain ⟨r, c⟩ := m
    cases r with
    | user => rfl
    | assistant =>
      rw [if_neg (by simp : ¬(⟨Role.assistant, c⟩ : Message).role = Role.user)]
      rfl
    | system =>
      rw [if_neg (by simp : ¬(⟨Role.system, c⟩ : Message).role = Role.user)]
      rfl
  · unfold formattedMessagesPart0
    rw [sliceLast_idem]

/-- Counterexample to C5 as stated: with a thirteen-entry history the
main variant formats all thirteen prior turns, not only the windowed
last twelve — the request differs (already in length) from the one built
from the windowed transcript. -/
theorem formattedMessages_window_cex :
    formattedMessages "m" (List.replicate 13 (⟨Role.user, "x"⟩ : Message))
      ≠ formattedMessages "m"
          (sliceLast MAX_HISTORY_LENGTH (List.replicate 13 (⟨Role.user, "x"⟩ : Message))) := by
  intro h
  have hlen := congrArg List.length h
  simp only [formattedMessages, List.length_cons, List.length_append, List.length_map,
    List.length_replicate, sliceLast_length, MAX_HISTORY_LENGTH] at hlen
  omega

/-- Witness for C5 at a concrete input: a two-turn history with one user
and one assistant turn, inspected at index 1. -/
theorem formattedMessages_structure_witness :
    (formattedMessages "oi" [⟨Role.user, "a"⟩, ⟨Role.assistant, "b"⟩]).head?
        = some ⟨Role.system, SYSTEM_PROMPT⟩ ∧
      (formattedMessages "oi" [⟨Role.user, "a"⟩, ⟨Role.assistant, "b"⟩]).getLast?
        = some ⟨Role.user, wrapInst "oi"⟩ ∧
      (formattedMessages "oi" [⟨Role.user, "a"⟩, ⟨Role.assistant, "b"⟩]).length
        = (List.length [(⟨Role.user, "a"⟩ : Message), ⟨Role.assistant, "b"⟩]) + 2 ∧
      (formattedMessages "oi" [⟨Role.user, "a"⟩, ⟨Role.assistant, "b"⟩])[1 + 1]?
        = some (formatTurn (List.get [⟨Role.user, "a"⟩, ⟨Role.assistant, "b"⟩] ⟨1, by decide⟩)) ∧
      (∀ m : Message, formatTurn m
        = if m.role = Role.user then ⟨Role.user, wrapInst m.content⟩ else m) ∧
      formattedMessagesPart0 "oi" [⟨Role.user, "a"⟩, ⟨Role.assistant, "b"⟩]
        = formattedMessagesPart0 "oi"
            (sliceLast MAX_HISTORY_LENGTH [⟨Role.user, "a"⟩, ⟨Role.assistant, "b"⟩]) :=
  formattedMessages_structure "oi" [⟨Role.user, "a"⟩, ⟨Role.assistant, "b"⟩] 1 (by decide)

/-- C6 (amended): `loadConversationHistory` returns Empty when the key is
absent; deletes the key and returns Empty exactly when the stored value
is present, non-empty, and does not parse as JSON; on the empty string
the truthiness guard skips the whole block, returning Empty with the key
left in place; accepts exactly the values that parse as a JSON array —
with no validation of the element shape — leaving the key in place; and
never writes a new value under the key. -/
theorem loadConversationHistory_behavior (s : String) :
    ((loadConversationHistory (some s)).1 ≠ none ↔
        ∃ l, parseJson s = some (Json.arr l)) ∧
      ((loadConversationHistory (some s)).2 = none ↔
        (s ≠ "" ∧ parseJson s = none)) ∧
      ((loadConversationHistory (some s)).2 = some s ∨
        (loadConversationHistory (some s)).2 = none) ∧
      loadConversationHistory (some "") = (none, some "") ∧
      loadConversationHistory none = (none, none) := by
  by_cases hs : s = ""
  · subst hs
    have hload : loadConversationHistory (some "") = (none, some "") := rfl
    have hp : parseJson "" = none := rfl
    rw [hload]
    refine ⟨?_, ?_, Or.inl rfl, rfl, rfl⟩
    · simp [hp]
    · simp
  · rcases hp : parseJson s with _ | v
    · simp [loadConversationHistory, hs, hp]
    · cases v <;> simp [loadConversationHistory, hs, hp]

/-- Counterexample to C6 as stated: the stored value is a JSON array
whose single element is a bare string, not a Message-shaped record, yet
the load accepts it as the restored transcript and leaves the key in
place instead of deleting it and returning Empty. -/
theorem loadConversationHistory_claim_cex :
    loadConversationHistory (some "[\"x\"]") = (some [Json.str "x"], some "[\"x\"]") ∧
      isMessageRecord (Json.str "x") = false :=
  ⟨rfl, rfl⟩

theorem stringifyJson_arr_ne_empty (l : List Json) : stringifyJson (Json.arr l) ≠ "" := by
  cases l with
  | nil => decide
  | cons v vs =>
    show String.mk ('[' :: (stringifyChars v ++ elemsChars vs)) ≠ ""
    intro h
    have hdata := congrArg String.data h
    simp at hdata

/-- C7 (amended): a stored value in canonical serialized form — in
particular anything previously written by save — is loaded back exactly
and re-saving it writes byte-identical content; this holds both for raw
restored element lists and for genuine transcript saves. -/
theorem save_load_roundtrip (l : List Json) (history : List Message) :
    loadConversationHistory (some (resaveRestored l))
        = (some l, some (resaveRestored l)) ∧
      loadConversationHistory (some (saveConversationHistory history))
        = (some (history.map encodeMessage), some (saveConversationHistory history)) := by
  constructor
  · have h1 : parseJson (stringifyJson (Json.arr l)) = some (Json.arr l) :=
      parseJson_stringifyJson (Json.arr l)
    show loadConversationHistory (some (stringifyJson (Json.arr l)))
      = (some l, some (stringifyJson (Json.arr l)))
    simp [loadConversationHistory, h1, stringifyJson_arr_ne_empty]
  · have h2 : parseJson (stringifyJson (Json.arr (history.map encodeMessage)))
        = some (Json.arr (history.map encodeMessage)) :=
      parseJson_stringifyJson (Json.arr (history.map encodeMessage))
    show loadConversationHistory (some (stringifyJson (Json.arr (history.map encodeMessage))))
      = (some (history.map encodeMessage),
          some (stringifyJson (Json.arr (history.map encodeMessage))))
    simp [loadConversationHistory, h2, stringifyJson_arr_ne_empty]

/-- Counterexample to C7 as stated: the stored value with a space inside
the brackets is accepted by the load, but re-saving the loaded transcript
writes the normalized form, which is not byte-identical to what was
stored. -/
theorem save_load_claim_cex :
    loadConversationHistory (some "[ ]") = (some [], some "[ ]") ∧
      resaveRestored [] = "[]" ∧ ("[]" : String) ≠ "[ ]" :=
  ⟨rfl, rfl, by decide⟩
